import Mathlib

/-!
Verification of the GIC (Generic Implicit Certificate) prototype.

This file gives a shallow embedding, in Lean 4, of the protocol core
(`src/gic/core.py`, `src/gic/codec.py`, `src/gic/ro.py`) and of the parts of
the three instantiations (`src/instantiations/{gq,schnorr,bls}/inst.py`)
that the verified properties refer to.  Python byte strings are embedded as
`List Nat` (each entry a byte value), Python unbounded integers as `Int`
(or `Nat` where the source value is provably non-negative), and fallible
Python functions (those returning `None` or raising) as `Option`-valued
functions.  External library primitives that the repository merely calls
(hashlib's SHA-256 digest, the `ecdsa` package's point decompression and
scalar multiplication, `py_ecc`'s G1 arithmetic) are abstracted as explicit
function parameters; everything written in the repository itself is
translated directly.
-/

/-! ## Group operation bundles (`HGroupOps` / `EGroupOps` of `gic/interfaces.py`) -/

/-- Operations of the abstract secret-key group H: identity `zero`,
composition `add`, inverse `neg` (additive notation, as in the source). -/
structure HGroupOps (H : Type) where
  zero : H
  add : H → H → H
  neg : H → H

/-- Operations of the abstract public-key group E: identity `one`,
composition `mul`, inverse `inv` (multiplicative notation, as in the source). -/
structure EGroupOps (E : Type) where
  one : E
  mul : E → E → E
  inv : E → E

/-! ## Scalar action (`z_action_H` / `z_action_E` of `gic/core.py`) -/

/-- The `while n > 0` loop of `z_action_H`: right-to-left double-and-add,
accumulating into `res`, doubling `base`, halving `n`. -/
def zLoopH {H : Type} (ops : HGroupOps H) (n : Nat) (res base : H) : H :=
  if n = 0 then res
  else zLoopH ops (n / 2) (if n % 2 = 1 then ops.add res base else res) (ops.add base base)
termination_by n
decreasing_by omega

/-- `z_action_H(ops, a, h)` of `gic/core.py`.  The source's single recursive
call for `a < 0` (`z_action_H(ops, -a, ops.neg(h))`, which then lands in the
positive branch) is inlined. -/
def z_action_H {H : Type} (ops : HGroupOps H) (a : Int) (h : H) : H :=
  if a = 0 then ops.zero
  else if a < 0 then zLoopH ops (-a).toNat ops.zero (ops.neg h)
  else zLoopH ops a.toNat ops.zero h

/-- The `while n > 0` loop of `z_action_E`: square-and-multiply. -/
def zLoopE {E : Type} (ops : EGroupOps E) (n : Nat) (res base : E) : E :=
  if n = 0 then res
  else zLoopE ops (n / 2) (if n % 2 = 1 then ops.mul res base else res) (ops.mul base base)
termination_by n
decreasing_by omega

/-- `z_action_E(ops, a, X)` of `gic/core.py`, the `a < 0` recursion inlined. -/
def z_action_E {E : Type} (ops : EGroupOps E) (a : Int) (X : E) : E :=
  if a = 0 then ops.one
  else if a < 0 then zLoopE ops (-a).toNat ops.one (ops.inv X)
  else zLoopE ops a.toNat ops.one X

/-- Naive `n`-fold repeated application of the H group operation to `x`:
`x ⊕ (x ⊕ (⋯ ⊕ zero))`, the reference the spec compares the scalar action
against for small exponents. -/
def powH {H : Type} (ops : HGroupOps H) : Nat → H → H
  | 0, _ => ops.zero
  | n + 1, x => ops.add x (powH ops n x)

/-- Naive `n`-fold repeated application of the E group operation to `x`. -/
def powE {E : Type} (ops : EGroupOps E) : Nat → E → E
  | 0, _ => ops.one
  | n + 1, x => ops.mul x (powE ops n x)

/-! ## Protocol engine (`gic/core.py`) -/

/-- `Params` of `gic/core.py`: the immutable bundle wiring one instantiation
into the engine.  `RO` returns a Python `int`, embedded as `Int`. -/
structure Params (H E : Type) where
  keygen : H → E
  H_ops : HGroupOps H
  E_ops : EGroupOps E
  Encode : E → List Nat → List Nat
  Decode : List Nat → Option (E × List Nat)
  RO : List Nat → Int

/-- `ViewU` of `gic/core.py`: the user's private residue of an issuance round. -/
structure ViewU (H : Type) where
  k_U : H
  r : H

/-- `ViewCA` of `gic/core.py`: the CA's private residue of an issuance round. -/
structure ViewCA (H : Type) where
  k_C : H
  r : H

/-- `Setup` of `gic/core.py` with the sampled secret `sk_C` passed explicitly
(the source draws it from `sample_H`). -/
def Setup {H E : Type} (params : Params H E) (sk_C : H) : H × E :=
  (sk_C, params.keygen sk_C)

/-- `iCertGen` of `gic/core.py`, with the two sampled ephemerals `k_U`, `k_C`
passed explicitly (the source draws them from `sample_H` in this order). -/
def iCertGen {H E : Type} (params : Params H E) (identity : List Nat)
    (sk_C k_U k_C : H) : (List Nat × ViewCA H) × (List Nat × ViewU H) :=
  let K_U := params.keygen k_U
  let K_C := params.keygen k_C
  let R_U := params.E_ops.mul K_U K_C
  let iCer := params.Encode R_U identity
  let e := params.RO iCer
  let r := params.H_ops.add (z_action_H params.H_ops e k_C) sk_C
  ((iCer, ⟨k_C, r⟩), (iCer, ⟨k_U, r⟩))

/-- `SKGen` of `gic/core.py`: user-side key reconstruction. -/
def SKGen {H E : Type} (params : Params H E) (view_U : ViewU H) (iCer : List Nat) : H :=
  params.H_ops.add (z_action_H params.H_ops (params.RO iCer) view_U.k_U) view_U.r

/-- `PKRecon` of `gic/core.py`: verifier-side public-key reconstruction,
`⊥` (here `none`) when the certificate fails to decode. -/
def PKRecon {H E : Type} (params : Params H E) (iCer : List Nat) (pk_C : E) : Option E :=
  match params.Decode iCer with
  | none => none
  | some (R_U, _id) => some (params.E_ops.mul (z_action_E params.E_ops (params.RO iCer) R_U) pk_C)

/-! ## Random oracle (`gic/ro.py`) -/

/-- `ro_default` of `gic/ro.py`.  The SHA-256 digest interpreted as a
big-endian unsigned integer (`int.from_bytes(sha256(iCer).digest(), "big")`)
is an external `hashlib` primitive, abstracted as the parameter `sha256be`. -/
def ro_default (sha256be : List Nat → Nat) (iCer : List Nat) (lam : Nat) : Nat :=
  1 + sha256be iCer % 2 ^ lam

/-! ## Byte-string helpers -/

/-- `bytes.startswith` on byte lists (translation of Python's `startswith`). -/
def startsWith : List Nat → List Nat → Bool
  | [], _ => true
  | _ :: _, [] => false
  | p :: ps, b :: bs => p == b && startsWith ps bs

/-- `int.from_bytes(b, "big")`: big-endian interpretation of a byte list. -/
def fromBytes (l : List Nat) : Nat := l.foldl (fun acc b => acc * 256 + b) 0

/-- `x.to_bytes(k, "big")`: the `k`-byte big-endian encoding of `x`
(well-defined for `x < 256 ^ k`; like the Python call site it is only used
on such `x`). -/
def toBytes : Nat → Nat → List Nat
  | 0, _ => []
  | k + 1, x => toBytes k (x / 256) ++ [x % 256]

/-- `b"R="` as a byte list. -/
def rPrefix : List Nat := [82, 61]

/-- `b"|id="` as a byte list. -/
def idDelim : List Nat := [124, 105, 100, 61]

/-! ## GQ instantiation (`src/instantiations/gq/inst.py`) -/

/-- Fuel-based binary length: `sizeAux fuel n` counts the halvings of `n`
down to zero; for `n ≤ fuel` it equals `Nat.size n` (structural recursion on
the fuel keeps it kernel-computable). -/
def sizeAux : Nat → Nat → Nat
  | _, 0 => 0
  | 0, _ => 0
  | fuel + 1, n => sizeAux fuel (n / 2) + 1

/-- Python's `int.bit_length()`: the number of binary digits of `n`
(0 for `n = 0`); agrees with `Nat.size` (see `bitLength_eq_size`). -/
def bitLength (n : Nat) : Nat := sizeAux n n

/-- The fixed element-field length `k = (N.bit_length() + 7) // 8` of
`make_encode_decode_for_modulus`. -/
def gq_len (N : Nat) : Nat := (bitLength N + 7) / 8

/-- The `encode` closure of `make_encode_decode_for_modulus`:
`b"R=" + (RU % N).to_bytes(k, "big") + b"|id=" + identity`. -/
def gq_encode (N : Nat) (RU : Nat) (identity : List Nat) : List Nat :=
  rPrefix ++ toBytes (gq_len N) (RU % N) ++ idDelim ++ identity

/-- The `decode` closure of `make_encode_decode_for_modulus`: checks the
`b"R="` head, the minimum length, the `b"|id="` delimiter at the fixed
offset, reduces the element field mod `N` and rejects non-invertible
residues. -/
def gq_decode (N : Nat) (iCer : List Nat) : Option (Nat × List Nat) :=
  if startsWith rPrefix iCer then
    let rest := iCer.drop 2
    if rest.length < gq_len N + 4 then none
    else
      let RU_bytes := rest.take (gq_len N)
      let tail := rest.drop (gq_len N)
      if startsWith idDelim tail then
        let RU := fromBytes RU_bytes % N
        if Nat.gcd RU N ≠ 1 then none
        else some (RU, tail.drop 4)
      else none
  else none

/-- Modular inverse by extended gcd, the value Python's `pow(s, -1, N)`
returns for `s` invertible mod `N`. -/
def modInv (a n : Nat) : Nat := ((Nat.xgcd a n).1 % (n : Int)).toNat

/-- The `keygen` closure of `make_keygen_gq`: reduce `s` mod `N`, fail (the
source raises `ValueError`, embedded as `none`) on non-invertible residues,
otherwise return `(s⁻¹)^e_rsa mod N`. -/
def keygen_gq (N e_rsa : Nat) (s : Int) : Option Nat :=
  let s' := (s % (N : Int)).toNat
  if Nat.gcd s' N ≠ 1 then none
  else some (modInv s' N ^ e_rsa % N)

/-- The rejection-sampling loop of `make_sampler_zstar`, with the stream of
raw draws of `secrets.randbelow(N - 2)` passed explicitly (each intended
draw is a uniform value `c < N - 2`; the candidate tested is `x = c + 2`,
i.e. uniform in `[2, N-1]`).  `none` means the finite stream was exhausted
before a candidate coprime to `N` appeared. -/
def sample_zstar (N : Nat) : List Nat → Option Nat
  | [] => none
  | c :: cs => if Nat.gcd (c + 2) N = 1 then some (c + 2) else sample_zstar N cs

/-- `x` is a possible output of the GQ secret-key sampler for modulus `N`:
some finite stream of in-range raw draws makes the loop return `x`. -/
def PossibleOutput (N x : Nat) : Prop :=
  ∃ cs : List Nat, (∀ c ∈ cs, c < N - 2) ∧ sample_zstar N cs = some x

/-! ## Simple integer codec (`src/gic/codec.py`) -/

/-- Big-endian decimal digits of `n` (the digit list of Python's `str(n)`). -/
def toDecimalBE (n : Nat) : List Nat :=
  if n < 10 then [n] else toDecimalBE (n / 10) ++ [n % 10]
termination_by n
decreasing_by omega

/-- Value of a big-endian decimal digit list. -/
def ofDecimalBE (l : List Nat) : Nat := l.foldl (fun a d => a * 10 + d) 0

/-- `str(n).encode("utf-8")` for a natural number: ASCII decimal digits. -/
def strNat (n : Nat) : List Nat := (toDecimalBE n).map (fun d => d + 48)

/-- `str(z).encode("utf-8")` for a Python integer: optional `'-'` (byte 45)
followed by the decimal digits of `|z|`. -/
def strInt (z : Int) : List Nat :=
  if z < 0 then 45 :: strNat (-z).toNat else strNat z.toNat

/-- `encode_simple` of `gic/codec.py`:
`b"R=" + str(R).encode("utf-8") + b"|id=" + identity`, for integer `R`. -/
def encode_simple (R : Int) (identity : List Nat) : List Nat :=
  rPrefix ++ strInt R ++ idDelim ++ identity

/-- `iCer.split(b"|id=", 1)` when the delimiter occurs: the part before the
first occurrence of `d` and the part after it; `none` when `d` does not
occur (Python then returns a single-element list). -/
def splitFirst (d : List Nat) : List Nat → Option (List Nat × List Nat)
  | [] => none
  | b :: rest =>
    if startsWith d (b :: rest) then some ([], (b :: rest).drop d.length)
    else
      match splitFirst d rest with
      | some (l, r2) => some (b :: l, r2)
      | none => none

/-- Parse an ASCII decimal digit string (Python `int` on an unsigned body;
the model accepts exactly nonempty all-digit strings, the sublanguage
`str` produces — `int`'s extra liberality over whitespace, `'+'` and `'_'`
never fires on round-trip inputs). -/
def parseNat (l : List Nat) : Option Nat :=
  if l ≠ [] ∧ ∀ b ∈ l, 48 ≤ b ∧ b ≤ 57 then
    some (ofDecimalBE (l.map (fun b => b - 48)))
  else none

/-- `int(bytes.decode("utf-8"))` on the sign-and-digits sublanguage. -/
def parseInt (l : List Nat) : Option Int :=
  match l with
  | [] => none
  | b :: rest =>
    if b = 45 then (parseNat rest).map (fun n => -(n : Int))
    else (parseNat (b :: rest)).map (fun n => (n : Int))

/-- `decode_simple_int` of `gic/codec.py`: split at the first `b"|id="`,
require the left part to carry the `b"R="` head, parse the integer; `none`
on any failure (the source catches every exception). -/
def decode_simple_int (iCer : List Nat) : Option (Int × List Nat) :=
  match splitFirst idDelim iCer with
  | none => none
  | some (left, identity) =>
    if startsWith rPrefix left then
      match parseInt (left.drop 2) with
      | some R => some (R, identity)
      | none => none
    else none

/-! ## Schnorr / BLS instantiations (shape-relevant parts) -/

/-- The `decode` closure of `make_encode_decode_p256` (`schnorr/inst.py`),
with the 33-byte compressed-point parser (`_point_from_bytes_compressed`,
which delegates to the external `ecdsa` package) abstracted as
`pointFromBytes`. -/
def schnorr_decode {P : Type} (pointFromBytes : List Nat → Option P)
    (iCer : List Nat) : Option (P × List Nat) :=
  if startsWith rPrefix iCer then
    let rest := iCer.drop 2
    if rest.length < 33 + 4 then none
    else
      let RU_bytes := rest.take 33
      let tail := rest.drop 33
      if startsWith idDelim tail then
        match pointFromBytes RU_bytes with
        | none => none
        | some RU => some (RU, tail.drop 4)
      else none
  else none

/-- The `keygen` closure of `make_keygen_p256` (`schnorr/inst.py`): reduce
mod the group order `q`, fail on zero, otherwise `s * G`; the external
curve scalar multiplication `s ↦ s * G` is abstracted as `mulG`. -/
def keygen_p256 {P : Type} (q : Nat) (mulG : Nat → P) (s : Int) : Option P :=
  let s' := (s % (q : Int)).toNat
  if s' = 0 then none else some (mulG s')

/-- The `keygen` closure of `make_keygen_bls_g1` (`bls/inst.py`): reduce mod
the curve order `q`, fail on zero, otherwise `s * G1` (external `py_ecc`
scalar multiplication abstracted as `mulG1`). -/
def keygen_bls_g1 {P : Type} (q : Nat) (mulG1 : Nat → P) (s : Int) : Option P :=
  let s' := (s % (q : Int)).toNat
  if s' = 0 then none else some (mulG1 s')

/-! ## Basic lemmas about the byte helpers -/

theorem startsWith_iff (p l : List Nat) : startsWith p l = true ↔ ∃ t, l = p ++ t := by
  induction p generalizing l with
  | nil => simp [startsWith]
  | cons x xs ih =>
    cases l with
    | nil => simp [startsWith]
    | cons b bs =>
      simp only [startsWith, Bool.and_eq_true, beq_iff_eq, ih, List.cons_append]
      constructor
      · rintro ⟨rfl, t, rfl⟩
        exact ⟨t, rfl⟩
      · rintro ⟨t, h⟩
        cases h
        exact ⟨rfl, t, rfl⟩

theorem startsWith_append (p t : List Nat) : startsWith p (p ++ t) = true :=
  (startsWith_iff p (p ++ t)).mpr ⟨t, rfl⟩

theorem startsWith_cons_of_ne (x : Nat) (xs : List Nat) (b : Nat) (bs : List Nat)
    (h : x ≠ b) : startsWith (x :: xs) (b :: bs) = false := by
  simp [startsWith, h]

theorem toBytes_length (k x : Nat) : (toBytes k x).length = k := by
  induction k generalizing x with
  | zero => rfl
  | succ k ih => simp [toBytes, ih]

theorem toBytes_mem_lt (k x : Nat) : ∀ b ∈ toBytes k x, b < 256 := by
  induction k generalizing x with
  | zero => simp [toBytes]
  | succ k ih =>
    intro b hb
    simp only [toBytes, List.mem_append, List.mem_singleton] at hb
    rcases hb with hb | rfl
    · exact ih (x / 256) b hb
    · omega

theorem fromBytes_append_single (l : List Nat) (b : Nat) :
    fromBytes (l ++ [b]) = fromBytes l * 256 + b := by
  simp [fromBytes, List.foldl_append]

theorem fromBytes_toBytes (k x : Nat) : fromBytes (toBytes k x) = x % 256 ^ k := by
  induction k generalizing x with
  | zero => simp [toBytes, fromBytes, Nat.mod_one]
  | succ k ih =>
    rw [toBytes, fromBytes_append_single, ih]
    have h : 256 ^ (k + 1) = 256 * 256 ^ k := by ring
    rw [h, Nat.mod_mul]
    omega

theorem toBytes_inj (k x y : Nat) (hx : x < 256 ^ k) (hy : y < 256 ^ k)
    (h : toBytes k x = toBytes k y) : x = y := by
  have hfx := fromBytes_toBytes k x
  have hfy := fromBytes_toBytes k y
  rw [h] at hfx
  rw [Nat.mod_eq_of_lt hx] at hfx
  rw [Nat.mod_eq_of_lt hy] at hfy
  omega

theorem size_eq_size_div2 (n : Nat) (h : n ≠ 0) : Nat.size n = Nat.size (n / 2) + 1 := by
  conv_lhs => rw [← Nat.bit_decomp n]
  rw [Nat.size_bit (by rw [Nat.bit_decomp]; exact h), Nat.div2_val]

theorem sizeAux_eq_size : ∀ fuel n : Nat, n ≤ fuel → sizeAux fuel n = Nat.size n := by
  intro fuel
  induction fuel with
  | zero =>
    intro n hn
    have h0 : n = 0 := by omega
    subst h0
    simp [sizeAux]
  | succ fuel ih =>
    intro n hn
    cases n with
    | zero => simp [sizeAux]
    | succ m =>
      rw [sizeAux, ih ((m + 1) / 2) (by omega), ← size_eq_size_div2 (m + 1) (by omega)]
      omega

theorem bitLength_eq_size (n : Nat) : bitLength n = Nat.size n :=
  sizeAux_eq_size n n (le_refl n)

theorem lt_pow_gq_len (N : Nat) : N < 2 ^ (8 * gq_len N) := by
  have h1 : N < 2 ^ Nat.size N := Nat.lt_size_self N
  have h2 : Nat.size N ≤ 8 * gq_len N := by
    unfold gq_len
    rw [bitLength_eq_size]
    omega
  exact lt_of_lt_of_le h1 (Nat.pow_le_pow_right (by omega) h2)

theorem pow_256_gq_len (N : Nat) : 256 ^ gq_len N = 2 ^ (8 * gq_len N) := by
  have : (256 : Nat) = 2 ^ 8 := by norm_num
  rw [this, ← Nat.pow_mul]

/-! ## Scalar-action lemmas -/

theorem powE_sq {E : Type} (ops : EGroupOps E)
    (hassoc : ∀ a b c, ops.mul (ops.mul a b) c = ops.mul a (ops.mul b c)) :
    ∀ (n : Nat) (b : E), powE ops n (ops.mul b b) = powE ops (2 * n) b := by
  intro n
  induction n with
  | zero => intro b; rfl
  | succ n ih =>
    intro b
    have h2 : 2 * (n + 1) = 2 * n + 1 + 1 := by omega
    rw [h2]
    simp only [powE]
    rw [ih b, hassoc]

theorem zLoopE_spec {E : Type} (ops : EGroupOps E)
    (hassoc : ∀ a b c, ops.mul (ops.mul a b) c = ops.mul a (ops.mul b c))
    (hmul_one : ∀ a, ops.mul a ops.one = a) :
    ∀ (n : Nat) (res base : E), zLoopE ops n res base = ops.mul res (powE ops n base) := by
  intro n
  induction n using Nat.strong_induction_on with
  | _ n ih =>
    intro res base
    by_cases h0 : n = 0
    · subst h0
      rw [zLoopE]
      simp [powE, hmul_one]
    · rw [zLoopE]
      simp only [h0, if_false]
      rw [ih (n / 2) (by omega), powE_sq ops hassoc]
      by_cases hpar : n % 2 = 1
      · have hn : 2 * (n / 2) + 1 = n := by omega
        simp only [hpar, if_pos rfl, if_true]
        rw [hassoc]
        have : ops.mul base (powE ops (2 * (n / 2)) base) = powE ops (2 * (n / 2) + 1) base := rfl
        rw [this, hn]
      · have hn : 2 * (n / 2) = n := by omega
        simp only [hpar, if_false]
        rw [hn]

theorem z_action_E_pos {E : Type} (ops : EGroupOps E)
    (hassoc : ∀ a b c, ops.mul (ops.mul a b) c = ops.mul a (ops.mul b c))
    (hone_mul : ∀ a, ops.mul ops.one a = a)
    (hmul_one : ∀ a, ops.mul a ops.one = a)
    (a : Int) (ha : 0 < a) (x : E) :
    z_action_E ops a x = powE ops a.toNat x := by
  unfold z_action_E
  rw [if_neg (by omega), if_neg (by omega), zLoopE_spec ops hassoc hmul_one, hone_mul]

theorem powH_sq {H : Type} (ops : HGroupOps H)
    (hassoc : ∀ a b c, ops.add (ops.add a b) c = ops.add a (ops.add b c)) :
    ∀ (n : Nat) (b : H), powH ops n (ops.add b b) = powH ops (2 * n) b := by
  intro n
  induction n with
  | zero => intro b; rfl
  | succ n ih =>
    intro b
    have h2 : 2 * (n + 1) = 2 * n + 1 + 1 := by omega
    rw [h2]
    simp only [powH]
    rw [ih b, hassoc]

theorem zLoopH_spec {H : Type} (ops : HGroupOps H)
    (hassoc : ∀ a b c, ops.add (ops.add a b) c = ops.add a (ops.add b c))
    (hadd_zero : ∀ a, ops.add a ops.zero = a) :
    ∀ (n : Nat) (res base : H), zLoopH ops n res base = ops.add res (powH ops n base) := by
  intro n
  induction n using Nat.strong_induction_on with
  | _ n ih =>
    intro res base
    by_cases h0 : n = 0
    · subst h0
      rw [zLoopH]
      simp [powH, hadd_zero]
    · rw [zLoopH]
      simp only [h0, if_false]
      rw [ih (n / 2) (by omega), powH_sq ops hassoc]
      by_cases hpar : n % 2 = 1
      · have hn : 2 * (n / 2) + 1 = n := by omega
        simp only [hpar, if_pos rfl, if_true]
        rw [hassoc]
        have : ops.add base (powH ops (2 * (n / 2)) base) = powH ops (2 * (n / 2) + 1) base := rfl
        rw [this, hn]
      · have hn : 2 * (n / 2) = n := by omega
        simp only [hpar, if_false]
        rw [hn]

theorem z_action_H_pos {H : Type} (ops : HGroupOps H)
    (hassoc : ∀ a b c, ops.add (ops.add a b) c = ops.add a (ops.add b c))
    (hzero_add : ∀ a, ops.add ops.zero a = a)
    (hadd_zero : ∀ a, ops.add a ops.zero = a)
    (a : Int) (ha : 0 < a) (x : H) :
    z_action_H ops a x = powH ops a.toNat x := by
  unfold z_action_H
  rw [if_neg (by omega), if_neg (by omega), zLoopH_spec ops hassoc hadd_zero, hzero_add]

theorem zLoop_rename {A : Type} (opsH : HGroupOps A) (opsE : EGroupOps A)
    (hadd : opsH.add = opsE.mul) :
    ∀ (n : Nat) (res base : A), zLoopH opsH n res base = zLoopE opsE n res base := by
  intro n
  induction n using Nat.strong_induction_on with
  | _ n ih =>
    intro res base
    by_cases h0 : n = 0
    · subst h0
      rw [zLoopH, zLoopE]
      simp
    · rw [zLoopH, zLoopE]
      simp only [h0, if_false, hadd]
      exact ih (n / 2) (by omega) _ _

theorem z_action_rename {A : Type} (opsH : HGroupOps A) (opsE : EGroupOps A)
    (hzero : opsH.zero = opsE.one) (hadd : opsH.add = opsE.mul)
    (hneg : opsH.neg = opsE.inv) (a : Int) (x : A) :
    z_action_H opsH a x = z_action_E opsE a x := by
  unfold z_action_H z_action_E
  rw [hzero, hneg]
  by_cases h0 : a = 0
  · simp [h0]
  · by_cases hneg' : a < 0
    · simp only [h0, if_false, hneg', if_true]
      exact zLoop_rename opsH opsE hadd _ _ _
    · simp only [h0, if_false, hneg', if_true]
      exact zLoop_rename opsH opsE hadd _ _ _

/-! ## GQ codec characterization -/

theorem gq_decode_eq_some_iff (N : Nat) (c : List Nat) (r : Nat) (idb : List Nat) :
    gq_decode N c = some (r, idb) ↔
      ∃ ru : List Nat, ru.length = gq_len N ∧
        c = rPrefix ++ (ru ++ (idDelim ++ idb)) ∧
        r = fromBytes ru % N ∧ Nat.gcd r N = 1 := by
  constructor
  · intro h
    unfold gq_decode at h
    by_cases h1 : startsWith rPrefix c = true
    swap
    · rw [if_neg h1] at h
      exact absurd h (by simp)
    rw [if_pos h1] at h
    obtain ⟨t, rfl⟩ := (startsWith_iff _ _).mp h1
    have hd2 : (rPrefix ++ t).drop 2 = t := List.drop_left rPrefix t
    simp only [hd2] at h
    by_cases h2 : t.length < gq_len N + 4
    · rw [if_pos h2] at h
      exact absurd h (by simp)
    rw [if_neg h2] at h
    by_cases h3 : startsWith idDelim (t.drop (gq_len N)) = true
    swap
    · rw [if_neg h3] at h
      exact absurd h (by simp)
    rw [if_pos h3] at h
    obtain ⟨s, hs⟩ := (startsWith_iff _ _).mp h3
    by_cases h4 : Nat.gcd (fromBytes (t.take (gq_len N)) % N) N ≠ 1
    · rw [if_pos h4] at h
      exact absurd h (by simp)
    rw [if_neg h4] at h
    rw [Option.some_inj, Prod.mk.injEq] at h
    obtain ⟨hr, hid⟩ := h
    refine ⟨t.take (gq_len N), ?_, ?_, ?_, ?_⟩
    · rw [List.length_take]
      omega
    · rw [List.append_right_inj]
      have hsb : s = idb := by
        rw [hs] at hid
        have h4l : idDelim.length = 4 := rfl
        rw [← h4l, List.drop_left] at hid
        exact hid
      have hsplit : t = t.take (gq_len N) ++ t.drop (gq_len N) :=
        (List.take_append_drop (gq_len N) t).symm
      rw [hs, hsb] at hsplit
      exact hsplit
    · exact hr.symm
    · rw [← hr]
      omega
  · rintro ⟨ru, hlen, rfl, hr, hgcd⟩
    unfold gq_decode
    rw [if_pos (startsWith_append rPrefix _)]
    have hd2 : (rPrefix ++ (ru ++ (idDelim ++ idb))).drop 2 = ru ++ (idDelim ++ idb) :=
      List.drop_left rPrefix _
    simp only [hd2]
    have hlen2 : (ru ++ (idDelim ++ idb)).length = gq_len N + 4 + idb.length := by
      simp [hlen, idDelim]
      omega
    rw [if_neg (by omega)]
    have htake : (ru ++ (idDelim ++ idb)).take (gq_len N) = ru := by
      rw [← hlen, List.take_left]
    have hdrop : (ru ++ (idDelim ++ idb)).drop (gq_len N) = idDelim ++ idb := by
      rw [← hlen, List.drop_left]
    rw [htake, hdrop, if_pos (startsWith_append idDelim idb)]
    rw [if_neg (by rw [← hr]; omega)]
    have : (idDelim ++ idb).drop 4 = idb := List.drop_left idDelim idb
    rw [this, ← hr]

theorem startsWith_take (p l : List Nat) (hl : p.length ≤ l.length) :
    startsWith p l = true ↔ l.take p.length = p := by
  constructor
  · intro h
    obtain ⟨t, rfl⟩ := (startsWith_iff _ _).mp h
    exact List.take_left p t
  · intro h
    have hsplit : l = l.take p.length ++ l.drop p.length :=
      (List.take_append_drop p.length l).symm
    rw [h] at hsplit
    rw [hsplit]
    exact startsWith_append p _

theorem gq_decode_eq_none_iff (N : Nat) (c : List Nat) :
    gq_decode N c = none ↔
      startsWith rPrefix c = false ∨
      (c.drop 2).length < gq_len N + 4 ∨
      (c.drop (2 + gq_len N)).take 4 ≠ idDelim ∨
      Nat.gcd (fromBytes ((c.drop 2).take (gq_len N)) % N) N ≠ 1 := by
  have hdd : (c.drop 2).drop (gq_len N) = c.drop (2 + gq_len N) := List.drop_drop _ _ _
  unfold gq_decode
  by_cases h1 : startsWith rPrefix c = true
  swap
  · rw [if_neg h1]
    constructor
    · intro _
      left
      simpa using h1
    · intro _
      rfl
  rw [if_pos h1]
  have hne1 : ¬ startsWith rPrefix c = false := by simp [h1]
  by_cases h2 : (c.drop 2).length < gq_len N + 4
  · rw [if_pos h2]
    constructor
    · intro _
      exact Or.inr (Or.inl h2)
    · intro _
      rfl
  rw [if_neg h2]
  have hlen4 : (4 : Nat) ≤ ((c.drop 2).drop (gq_len N)).length := by
    rw [List.length_drop]
    omega
  have h4l : idDelim.length = 4 := rfl
  by_cases h3 : startsWith idDelim ((c.drop 2).drop (gq_len N)) = true
  swap
  · rw [if_neg h3]
    constructor
    · intro _
      refine Or.inr (Or.inr (Or.inl ?_))
      intro htake
      apply h3
      rw [startsWith_take idDelim _ (by omega), h4l, hdd]
      exact htake
    · intro _
      rfl
  rw [if_pos h3]
  have htake3 : (c.drop (2 + gq_len N)).take 4 = idDelim := by
    rw [← hdd, ← h4l]
    exact (startsWith_take idDelim _ (by omega)).mp h3
  by_cases h4 : Nat.gcd (fromBytes ((c.drop 2).take (gq_len N)) % N) N ≠ 1
  · rw [if_pos h4]
    constructor
    · intro _
      exact Or.inr (Or.inr (Or.inr h4))
    · intro _
      rfl
  · rw [if_neg h4]
    constructor
    · intro h
      exact absurd h (by simp)
    · intro h
      rcases h with h | h | h | h
      · exact absurd h hne1
      · exact absurd h h2
      · exact absurd htake3 h
      · exact absurd h h4

/-! ## Simple codec lemmas -/

theorem toDecimalBE_mem_lt (n : Nat) : ∀ d ∈ toDecimalBE n, d < 10 := by
  induction n using Nat.strong_induction_on with
  | _ n ih =>
    intro d hd
    by_cases h : n < 10
    · rw [toDecimalBE, if_pos h] at hd
      simp at hd
      omega
    · rw [toDecimalBE, if_neg h] at hd
      simp only [List.mem_append, List.mem_singleton] at hd
      rcases hd with hd | rfl
      · exact ih (n / 10) (by omega) d hd
      · omega

theorem toDecimalBE_ne_nil (n : Nat) : toDecimalBE n ≠ [] := by
  by_cases h : n < 10
  · rw [toDecimalBE, if_pos h]
    simp
  · rw [toDecimalBE, if_neg h]
    simp

theorem ofDecimalBE_append_single (l : List Nat) (d : Nat) :
    ofDecimalBE (l ++ [d]) = ofDecimalBE l * 10 + d := by
  simp [ofDecimalBE, List.foldl_append]

theorem ofDecimalBE_toDecimalBE (n : Nat) : ofDecimalBE (toDecimalBE n) = n := by
  induction n using Nat.strong_induction_on with
  | _ n ih =>
    by_cases h : n < 10
    · rw [toDecimalBE, if_pos h]
      simp [ofDecimalBE]
    · rw [toDecimalBE, if_neg h, ofDecimalBE_append_single, ih (n / 10) (by omega)]
      omega

theorem strNat_mem (n : Nat) : ∀ b ∈ strNat n, 48 ≤ b ∧ b ≤ 57 := by
  intro b hb
  simp only [strNat, List.mem_map] at hb
  obtain ⟨d, hd, rfl⟩ := hb
  have := toDecimalBE_mem_lt n d hd
  omega

theorem parseNat_strNat (n : Nat) : parseNat (strNat n) = some n := by
  rw [parseNat, if_pos]
  · congr 1
    have hmap : (strNat n).map (fun b => b - 48) = toDecimalBE n := by
      rw [strNat, List.map_map]
      have : ((fun b => b - 48) ∘ fun d => d + 48) = fun d : Nat => d := by
        funext d
        simp
      rw [this]
      simp
    rw [hmap, ofDecimalBE_toDecimalBE]
  · refine ⟨?_, strNat_mem n⟩
    rw [strNat]
    intro hc
    exact toDecimalBE_ne_nil n (by simpa using hc)

theorem parseInt_strInt (z : Int) : parseInt (strInt z) = some z := by
  by_cases hz : z < 0
  · rw [strInt, if_pos hz, parseInt, if_pos rfl, parseNat_strNat]
    have hmap : (some (-z).toNat).map (fun n => -(n : Int)) = some (-((-z).toNat : Int)) := rfl
    rw [hmap]
    congr 1
    omega
  · rw [strInt, if_neg hz]
    have hne := toDecimalBE_ne_nil z.toNat
    rcases hhead : strNat z.toNat with _ | ⟨b, bs⟩
    · rw [strNat] at hhead
      exact absurd (by simpa using hhead) hne
    · have hb : 48 ≤ b ∧ b ≤ 57 := by
        apply strNat_mem z.toNat
        rw [hhead]
        simp
      rw [parseInt, if_neg (by omega), ← hhead, parseNat_strNat]
      have hmap : (some z.toNat).map (fun n => (n : Int)) = some ((z.toNat : Int)) := rfl
      rw [hmap]
      congr 1
      omega

theorem splitFirst_of_not_mem (x : Nat) (xs : List Nat) (l r : List Nat)
    (hx : ∀ b ∈ l, b ≠ x) :
    splitFirst (x :: xs) (l ++ (x :: xs) ++ r) = some (l, r) := by
  induction l with
  | nil =>
    rw [List.nil_append, List.cons_append, splitFirst]
    rw [if_pos (by exact startsWith_append (x :: xs) r)]
    have hd := List.drop_left (x :: xs) r
    simp only [List.cons_append] at hd
    rw [hd]
  | cons b bs ih =>
    have hbx : b ≠ x := hx b (by simp)
    rw [List.cons_append, List.cons_append, splitFirst]
    rw [if_neg (by rw [startsWith_cons_of_ne x xs b _ (fun he => hbx he.symm)]; simp)]
    rw [ih (fun c hc => hx c (by simp [hc]))]

/-! ## Commutative-group facts about an `EGroupOps` bundle -/

theorem emul_left_comm {E : Type} (ops : EGroupOps E)
    (hassoc : ∀ a b c, ops.mul (ops.mul a b) c = ops.mul a (ops.mul b c))
    (hcomm : ∀ a b, ops.mul a b = ops.mul b a)
    (a b c : E) : ops.mul a (ops.mul b c) = ops.mul b (ops.mul a c) := by
  rw [← hassoc, hcomm a b, hassoc]

theorem powE_mul_distrib {E : Type} (ops : EGroupOps E)
    (hassoc : ∀ a b c, ops.mul (ops.mul a b) c = ops.mul a (ops.mul b c))
    (hcomm : ∀ a b, ops.mul a b = ops.mul b a)
    (hone_mul : ∀ a, ops.mul ops.one a = a) :
    ∀ (n : Nat) (A B : E), powE ops n (ops.mul A B) = ops.mul (powE ops n A) (powE ops n B) := by
  intro n
  induction n with
  | zero =>
    intro A B
    simp [powE, hone_mul]
  | succ n ih =>
    intro A B
    simp only [powE]
    rw [ih A B, hassoc, emul_left_comm ops hassoc hcomm B (powE ops n A) (powE ops n B),
      ← hassoc]

theorem einv_unique {E : Type} (ops : EGroupOps E)
    (hassoc : ∀ a b c, ops.mul (ops.mul a b) c = ops.mul a (ops.mul b c))
    (hone_mul : ∀ a, ops.mul ops.one a = a)
    (hmul_one : ∀ a, ops.mul a ops.one = a)
    (hinv_mul : ∀ a, ops.mul (ops.inv a) a = ops.one)
    (x y : E) (h : ops.mul x y = ops.one) : ops.inv x = y := by
  have h1 : ops.mul (ops.inv x) (ops.mul x y) = ops.inv x := by
    rw [h, hmul_one]
  rw [← hassoc, hinv_mul, hone_mul] at h1
  exact h1.symm

theorem einv_mul_distrib {E : Type} (ops : EGroupOps E)
    (hassoc : ∀ a b c, ops.mul (ops.mul a b) c = ops.mul a (ops.mul b c))
    (hcomm : ∀ a b, ops.mul a b = ops.mul b a)
    (hone_mul : ∀ a, ops.mul ops.one a = a)
    (hmul_one : ∀ a, ops.mul a ops.one = a)
    (hinv_mul : ∀ a, ops.mul (ops.inv a) a = ops.one)
    (hmul_inv : ∀ a, ops.mul a (ops.inv a) = ops.one)
    (A B : E) : ops.inv (ops.mul A B) = ops.mul (ops.inv A) (ops.inv B) := by
  apply einv_unique ops hassoc hone_mul hmul_one hinv_mul
  rw [hassoc, emul_left_comm ops hassoc hcomm B (ops.inv A) (ops.inv B), ← hassoc,
    hmul_inv A, hone_mul, hmul_inv B]

theorem z_action_E_mul_distrib {E : Type} (ops : EGroupOps E)
    (hassoc : ∀ a b c, ops.mul (ops.mul a b) c = ops.mul a (ops.mul b c))
    (hcomm : ∀ a b, ops.mul a b = ops.mul b a)
    (hone_mul : ∀ a, ops.mul ops.one a = a)
    (hmul_one : ∀ a, ops.mul a ops.one = a)
    (hinv_mul : ∀ a, ops.mul (ops.inv a) a = ops.one)
    (hmul_inv : ∀ a, ops.mul a (ops.inv a) = ops.one)
    (e : Int) (A B : E) :
    z_action_E ops e (ops.mul A B) = ops.mul (z_action_E ops e A) (z_action_E ops e B) := by
  by_cases h0 : e = 0
  · subst h0
    unfold z_action_E
    simp [hone_mul]
  · by_cases hneg : e < 0
    · unfold z_action_E
      rw [if_neg h0, if_neg h0, if_neg h0, if_pos hneg, if_pos hneg, if_pos hneg]
      rw [zLoopE_spec ops hassoc hmul_one, zLoopE_spec ops hassoc hmul_one,
        zLoopE_spec ops hassoc hmul_one]
      rw [hone_mul, hone_mul, hone_mul]
      rw [einv_mul_distrib ops hassoc hcomm hone_mul hmul_one hinv_mul hmul_inv]
      exact powE_mul_distrib ops hassoc hcomm hone_mul _ _ _
    · unfold z_action_E
      rw [if_neg h0, if_neg h0, if_neg h0, if_neg hneg, if_neg hneg, if_neg hneg]
      rw [zLoopE_spec ops hassoc hmul_one, zLoopE_spec ops hassoc hmul_one,
        zLoopE_spec ops hassoc hmul_one]
      rw [hone_mul, hone_mul, hone_mul]
      exact powE_mul_distrib ops hassoc hcomm hone_mul _ _ _

/-! ## gcd is invariant under Python-style reduction mod `N` -/

theorem int_gcd_emod (s : Int) (N : Nat) : Int.gcd (s % (N : Int)) N = Int.gcd s N := by
  apply Nat.dvd_antisymm
  · apply Nat.dvd_gcd
    · have h1 : (↑(Int.gcd (s % ↑N) ↑N) : Int) ∣ s % ↑N := Int.gcd_dvd_left
      have h2 : (↑(Int.gcd (s % ↑N) ↑N) : Int) ∣ (N : Int) := Int.gcd_dvd_right
      have h3 : (↑(Int.gcd (s % ↑N) ↑N) : Int) ∣ s := by
        have hs : s % ↑N + ↑N * (s / ↑N) = s := by
          rw [Int.emod_def]
          ring
        have hdvd : (↑(Int.gcd (s % ↑N) ↑N) : Int) ∣ s % ↑N + ↑N * (s / ↑N) :=
          dvd_add h1 (Dvd.dvd.mul_right h2 _)
        rwa [hs] at hdvd
      have h4 := Int.natAbs_dvd_natAbs.mpr h3
      simpa using h4
    · have h2 : (↑(Int.gcd (s % ↑N) ↑N) : Int) ∣ (N : Int) := Int.gcd_dvd_right
      have h4 := Int.natAbs_dvd_natAbs.mpr h2
      simpa using h4
  · apply Nat.dvd_gcd
    · have h1 : (↑(Int.gcd s ↑N) : Int) ∣ s := Int.gcd_dvd_left
      have h2 : (↑(Int.gcd s ↑N) : Int) ∣ (N : Int) := Int.gcd_dvd_right
      have h3 : (↑(Int.gcd s ↑N) : Int) ∣ s % ↑N := by
        rw [Int.emod_def]
        exact dvd_sub h1 (Dvd.dvd.mul_right h2 _)
      have h4 := Int.natAbs_dvd_natAbs.mpr h3
      simpa using h4
    · have h2 : (↑(Int.gcd s ↑N) : Int) ∣ (N : Int) := Int.gcd_dvd_right
      have h4 := Int.natAbs_dvd_natAbs.mpr h2
      simpa using h4

/-! ## A concrete non-abelian instantiation: the symmetric group S₃

Elements of S₃ are numbered `0 = id`, `1 = (01)`, `2 = (02)`, `3 = (12)`,
`4 = (0→1→2→0)`, `5 = (0→2→1→0)`; `s3mul a b` is the composition
"apply `b`, then `a`". -/

def s3mul (a b : Fin 6) : Fin 6 :=
  ![![0, 1, 2, 3, 4, 5],
    ![1, 0, 5, 4, 3, 2],
    ![2, 4, 0, 5, 1, 3],
    ![3, 5, 4, 0, 2, 1],
    ![4, 2, 3, 1, 5, 0],
    ![5, 3, 1, 2, 0, 4]] a b

def s3inv (a : Fin 6) : Fin 6 := ![0, 1, 2, 3, 5, 4] a

def s3Hops : HGroupOps (Fin 6) := ⟨0, s3mul, s3inv⟩

def s3Eops : EGroupOps (Fin 6) := ⟨0, s3mul, s3inv⟩

/-- A trivially invertible certificate codec over S₃ elements. -/
def s3encode (R : Fin 6) (identity : List Nat) : List Nat := R.val :: identity

def s3decode (c : List Nat) : Option (Fin 6 × List Nat) :=
  match c with
  | [] => none
  | b :: rest => if h : b < 6 then some (⟨b, h⟩, rest) else none

/-- The generic engine instantiated on the non-abelian group S₃ for both H
and E, with `keygen = id` and a constant challenge oracle. -/
def s3Params : Params (Fin 6) (Fin 6) :=
  { keygen := fun x => x
    H_ops := s3Hops
    E_ops := s3Eops
    Encode := s3encode
    Decode := s3decode
    RO := fun _ => 2 }

theorem s3_decode_encode (R : Fin 6) (identity : List Nat) :
    s3decode (s3encode R identity) = some (R, identity) := by
  simp [s3encode, s3decode, R.isLt]

theorem s3_keygen_hom (e : Int) (x y : Fin 6) :
    s3Params.keygen (s3Params.H_ops.add (z_action_H s3Params.H_ops e x) y) =
      s3Params.E_ops.mul (z_action_E s3Params.E_ops e (s3Params.keygen x))
        (s3Params.keygen y) := by
  show s3mul (z_action_H s3Hops e x) y = s3mul (z_action_E s3Eops e x) y
  rw [z_action_rename s3Hops s3Eops rfl rfl rfl]

/-! ## PKRecon evaluation helpers -/

theorem PKRecon_decode_none {H E : Type} (params : Params H E) (iCer : List Nat) (pk_C : E)
    (h : params.Decode iCer = none) : PKRecon params iCer pk_C = none := by
  unfold PKRecon
  rw [h]

theorem PKRecon_decode_some {H E : Type} (params : Params H E) (iCer : List Nat) (pk_C : E)
    (R : E) (idb : List Nat) (h : params.Decode iCer = some (R, idb)) :
    PKRecon params iCer pk_C =
      some (params.E_ops.mul (z_action_E params.E_ops (params.RO iCer) R) pk_C) := by
  unfold PKRecon
  rw [h]

/-! ## Codec round-trip helpers -/

theorem strInt_mem (z : Int) : ∀ b ∈ strInt z, b = 45 ∨ (48 ≤ b ∧ b ≤ 57) := by
  intro b hb
  unfold strInt at hb
  by_cases hz : z < 0
  · rw [if_pos hz] at hb
    rcases List.mem_cons.mp hb with rfl | hb2
    · left
      rfl
    · right
      exact strNat_mem _ b hb2
  · rw [if_neg hz] at hb
    right
    exact strNat_mem _ b hb

theorem decode_encode_simple (z : Int) (idb : List Nat) :
    decode_simple_int (encode_simple z idb) = some (z, idb) := by
  have hmem : ∀ b ∈ rPrefix ++ strInt z, b ≠ 124 := by
    intro b hb
    rcases List.mem_append.mp hb with hb1 | hb2
    · simp only [rPrefix, List.mem_cons, List.not_mem_nil, or_false] at hb1
      omega
    · rcases strInt_mem z b hb2 with rfl | hb3
      · omega
      · omega
  have hsplit0 := splitFirst_of_not_mem 124 [105, 100, 61] (rPrefix ++ strInt z) idb hmem
  have hsplit : splitFirst idDelim (encode_simple z idb) = some (rPrefix ++ strInt z, idb) := by
    have hshape : (rPrefix ++ strInt z) ++ (124 :: [105, 100, 61]) ++ idb =
        encode_simple z idb := by
      unfold encode_simple idDelim
      simp [List.append_assoc]
    rw [← hshape]
    exact hsplit0
  unfold decode_simple_int
  simp only [hsplit]
  rw [if_pos (startsWith_append rPrefix (strInt z))]
  have hdrop : List.drop 2 (rPrefix ++ strInt z) = strInt z := List.drop_left rPrefix (strInt z)
  simp only [hdrop, parseInt_strInt]

theorem gq_decode_raw (N x : Nat) (idb : List Nat) (hx : x < 2 ^ (8 * gq_len N))
    (hg : Nat.gcd (x % N) N = 1) :
    gq_decode N (rPrefix ++ (toBytes (gq_len N) x ++ (idDelim ++ idb))) = some (x % N, idb) := by
  rw [gq_decode_eq_some_iff]
  have hx' : x < 256 ^ gq_len N := by
    rw [pow_256_gq_len]
    exact hx
  refine ⟨toBytes (gq_len N) x, toBytes_length _ _, rfl, ?_, ?_⟩
  · rw [fromBytes_toBytes, Nat.mod_eq_of_lt hx']
  · exact hg

theorem gq_decode_encode (N R : Nat) (idb : List Nat) (hR : R < N) (hg : Nat.gcd R N = 1) :
    gq_decode N (gq_encode N R idb) = some (R, idb) := by
  have hRN : R % N = R := Nat.mod_eq_of_lt hR
  have hshape : gq_encode N R idb = rPrefix ++ (toBytes (gq_len N) R ++ (idDelim ++ idb)) := by
    unfold gq_encode
    rw [hRN]
    simp [List.append_assoc]
  rw [hshape]
  have hx : R < 2 ^ (8 * gq_len N) := lt_trans hR (lt_pow_gq_len N)
  have := gq_decode_raw N R idb hx (by rw [hRN]; exact hg)
  rw [this, hRN]

/-! ## Sampler helpers -/

theorem sample_zstar_sound (N x : Nat) :
    ∀ cs : List Nat, (∀ c ∈ cs, c < N - 2) → sample_zstar N cs = some x →
      2 ≤ x ∧ x ≤ N - 1 ∧ Nat.gcd x N = 1 := by
  intro cs
  induction cs with
  | nil =>
    intro _ heq
    exact absurd heq (by simp [sample_zstar])
  | cons c cs ih =>
    intro hlt heq
    rw [sample_zstar] at heq
    by_cases hg : Nat.gcd (c + 2) N = 1
    · rw [if_pos hg] at heq
      have hcx : c + 2 = x := by
        injection heq
      have hc := hlt c (by simp)
      subst hcx
      exact ⟨by omega, by omega, hg⟩
    · rw [if_neg hg] at heq
      exact ih (fun d hd => hlt d (by simp [hd])) heq

/-! ## A small abelian instantiation: Z mod 7 under addition, `keygen = id` -/

def f7Hops : HGroupOps (Fin 7) := ⟨0, fun a b => a + b, fun v => -v⟩

def f7Eops : EGroupOps (Fin 7) := ⟨0, fun a b => a + b, fun v => -v⟩

def f7encode (R : Fin 7) (identity : List Nat) : List Nat := R.val :: identity

def f7decode (c : List Nat) : Option (Fin 7 × List Nat) :=
  match c with
  | [] => none
  | b :: rest => if h : b < 7 then some (⟨b, h⟩, rest) else none

def f7Params : Params (Fin 7) (Fin 7) :=
  { keygen := fun x => x
    H_ops := f7Hops
    E_ops := f7Eops
    Encode := f7encode
    Decode := f7decode
    RO := fun _ => 3 }

theorem f7_decode_encode (R : Fin 7) (identity : List Nat) :
    f7Params.Decode (f7Params.Encode R identity) = some (R, identity) := by
  show f7decode (f7encode R identity) = some (R, identity)
  simp [f7encode, f7decode, R.isLt]

theorem f7_keygen_hom (e : Int) (x y : Fin 7) :
    f7Params.keygen (f7Params.H_ops.add (z_action_H f7Params.H_ops e x) y) =
      f7Params.E_ops.mul (z_action_E f7Params.E_ops e (f7Params.keygen x))
        (f7Params.keygen y) := by
  show f7Hops.add (z_action_H f7Hops e x) y = f7Eops.mul (z_action_E f7Eops e x) y
  rw [z_action_rename f7Hops f7Eops rfl rfl rfl]
  rfl

/-! ## The toy configuration of `tests/test_skeleton.py` (Q = 65537, H and E
both realized as addition mod Q, `keygen(sk) = sk % Q`) -/

def skelParams (sha256be : List Nat → Nat) : Params Int Int :=
  { keygen := fun sk => sk % 65537
    H_ops := ⟨0, fun a b => (a + b) % 65537, fun v => -v % 65537⟩
    E_ops := ⟨0, fun a b => (a + b) % 65537, fun v => -v % 65537⟩
    Encode := encode_simple
    Decode := decode_simple_int
    RO := fun cer => (ro_default sha256be cer 16 : Int) }

/-- `b"not-an-icert"` as a byte list. -/
def notAnIcert : List Nat := [110, 111, 116, 45, 97, 110, 45, 105, 99, 101, 114, 116]

/-! ## Claim theorems -/

/-- C2. Encode/Decode round-trip: for the GQ codec every `R` with
`0 ≤ R < N` and `gcd(R, N) = 1`, and for the simple integer codec every
integer `R`, and every identity byte string (empty, long, or containing the
literal delimiter bytes), `Decode (Encode R id) = (R, id)`. -/
theorem gic_c2_round_trip :
    (∀ (N R : Nat) (idb : List Nat), R < N → Nat.gcd R N = 1 →
      gq_decode N (gq_encode N R idb) = some (R, idb)) ∧
    (∀ (R : Int) (idb : List Nat), decode_simple_int (encode_simple R idb) = some (R, idb)) :=
  ⟨fun N R idb hR hg => gq_decode_encode N R idb hR hg,
   fun R idb => decode_encode_simple R idb⟩

theorem gic_c2_witness :
    gq_decode 7 (gq_encode 7 3 [124, 105, 100, 61]) = some (3, [124, 105, 100, 61]) ∧
    decode_simple_int (encode_simple (-12) [124, 105, 100, 61]) =
      some (-12, [124, 105, 100, 61]) :=
  ⟨gic_c2_round_trip.1 7 3 [124, 105, 100, 61] (by decide) (by decide),
   gic_c2_round_trip.2 (-12) [124, 105, 100, 61]⟩

/-- C3. PKRecon returns ⊥ exactly when Decode does; otherwise, with
`Decode(iCer) = (R_U, id)` and `e = RO(iCer)`, it returns
`compose(scalarAct(E, e, R_U), pk_C)`; in particular the skeleton-test
configuration rejects `b"not-an-icert"`. -/
theorem gic_c3_pkrecon :
    (∀ (Hty Ety : Type) (params : Params Hty Ety) (iCer : List Nat) (pk_C : Ety),
      (PKRecon params iCer pk_C = none ↔ params.Decode iCer = none) ∧
      (∀ (R : Ety) (idb : List Nat), params.Decode iCer = some (R, idb) →
        PKRecon params iCer pk_C =
          some (params.E_ops.mul (z_action_E params.E_ops (params.RO iCer) R) pk_C))) ∧
    (∀ (sha256be : List Nat → Nat) (pk_C : Int),
      PKRecon (skelParams sha256be) notAnIcert pk_C = none) := by
  constructor
  · intro Hty Ety params iCer pk_C
    constructor
    · cases hd : params.Decode iCer with
      | none => simp [PKRecon_decode_none params iCer pk_C hd, hd]
      | some p =>
        obtain ⟨R, idb⟩ := p
        rw [PKRecon_decode_some params iCer pk_C R idb hd]
        simp [hd]
    · intro R idb hd
      exact PKRecon_decode_some params iCer pk_C R idb hd
  · intro sha256be pk_C
    apply PKRecon_decode_none
    show decode_simple_int notAnIcert = none
    decide

theorem gic_c3_witness :
    PKRecon (skelParams (fun _ => 0)) notAnIcert 5 = none ∧
    PKRecon (skelParams (fun _ => 0)) (encode_simple 3 [97]) 5 =
      some ((skelParams (fun _ => 0)).E_ops.mul
        (z_action_E (skelParams (fun _ => 0)).E_ops
          ((skelParams (fun _ => 0)).RO (encode_simple 3 [97])) 3) 5) :=
  ⟨gic_c3_pkrecon.2 (fun _ => 0) 5,
   (gic_c3_pkrecon.1 Int Int (skelParams (fun _ => 0)) (encode_simple 3 [97]) 5).2 3 [97]
     (decode_encode_simple 3 [97])⟩

/-- C4. Decode totality and failure conditions: every instantiation decoder
returns a pair or ⊥ on every input, and the GQ decoder returns ⊥ exactly
when the `b"R="` head is missing, or what follows it is shorter than
`k + 4` bytes, or the 4 bytes at offset `2 + k` are not `b"|id="`, or the
element field does not reduce to an invertible residue mod `N`. -/
theorem gic_c4_decode_total :
    (∀ (N : Nat) (c : List Nat),
      ((∃ p, gq_decode N c = some p) ∨ gq_decode N c = none) ∧
      (gq_decode N c = none ↔
        startsWith rPrefix c = false ∨
        (c.drop 2).length < gq_len N + 4 ∨
        (c.drop (2 + gq_len N)).take 4 ≠ idDelim ∨
        Nat.gcd (fromBytes ((c.drop 2).take (gq_len N)) % N) N ≠ 1)) ∧
    (∀ c : List Nat, (∃ p, decode_simple_int c = some p) ∨ decode_simple_int c = none) ∧
    (∀ (P : Type) (pointFromBytes : List Nat → Option P) (c : List Nat),
      (∃ p, schnorr_decode pointFromBytes c = some p) ∨
        schnorr_decode pointFromBytes c = none) := by
  refine ⟨fun N c => ⟨?_, gq_decode_eq_none_iff N c⟩, fun c => ?_, fun P pfb c => ?_⟩
  · cases h : gq_decode N c with
    | none => exact Or.inr rfl
    | some p => exact Or.inl ⟨p, rfl⟩
  · cases h : decode_simple_int c with
    | none => exact Or.inr rfl
    | some p => exact Or.inl ⟨p, rfl⟩
  · cases h : schnorr_decode pfb c with
    | none => exact Or.inr rfl
    | some p => exact Or.inl ⟨p, rfl⟩

/-- C5. Scalar-action correctness under the group axioms: action by 0 is
the identity, action by a negative scalar acts by `-a` on the inverted
element, and action by a positive scalar equals the naive `a`-fold
repeated application of the group operation — for `z_action_H` and
`z_action_E` alike. -/
theorem gic_c5_scalar_action {Hty Ety : Type} (opsH : HGroupOps Hty) (opsE : EGroupOps Ety)
    (hHassoc : ∀ a b c, opsH.add (opsH.add a b) c = opsH.add a (opsH.add b c))
    (hHzero_add : ∀ a, opsH.add opsH.zero a = a)
    (hHadd_zero : ∀ a, opsH.add a opsH.zero = a)
    (hHneg_add : ∀ a, opsH.add (opsH.neg a) a = opsH.zero)
    (hHadd_neg : ∀ a, opsH.add a (opsH.neg a) = opsH.zero)
    (hEassoc : ∀ a b c, opsE.mul (opsE.mul a b) c = opsE.mul a (opsE.mul b c))
    (hEone_mul : ∀ a, opsE.mul opsE.one a = a)
    (hEmul_one : ∀ a, opsE.mul a opsE.one = a)
    (hEinv_mul : ∀ a, opsE.mul (opsE.inv a) a = opsE.one)
    (hEmul_inv : ∀ a, opsE.mul a (opsE.inv a) = opsE.one) :
    (∀ x : Hty, z_action_H opsH 0 x = opsH.zero) ∧
    (∀ (a : Int) (x : Hty), a < 0 → z_action_H opsH a x = z_action_H opsH (-a) (opsH.neg x)) ∧
    (∀ (a : Int) (x : Hty), 0 < a → z_action_H opsH a x = powH opsH a.toNat x) ∧
    (∀ X : Ety, z_action_E opsE 0 X = opsE.one) ∧
    (∀ (a : Int) (X : Ety), a < 0 → z_action_E opsE a X = z_action_E opsE (-a) (opsE.inv X)) ∧
    (∀ (a : Int) (X : Ety), 0 < a → z_action_E opsE a X = powE opsE a.toNat X) := by
  refine ⟨?_, ?_, ?_, ?_, ?_, ?_⟩
  · intro x
    unfold z_action_H
    rw [if_pos rfl]
  · intro a x ha
    unfold z_action_H
    rw [if_neg (by omega), if_pos ha, if_neg (by omega), if_neg (by omega)]
  · intro a x ha
    exact z_action_H_pos opsH hHassoc hHzero_add hHadd_zero a ha x
  · intro X
    unfold z_action_E
    rw [if_pos rfl]
  · intro a X ha
    unfold z_action_E
    rw [if_neg (by omega), if_pos ha, if_neg (by omega), if_neg (by omega)]
  · intro a X ha
    exact z_action_E_pos opsE hEassoc hEone_mul hEmul_one a ha X

theorem gic_c5_witness :
    z_action_H f7Hops 5 3 = powH f7Hops 5 3 ∧
    z_action_E f7Eops (-4) 2 = z_action_E f7Eops 4 (f7Eops.inv 2) ∧
    z_action_E f7Eops 0 6 = f7Eops.one := by
  have h := gic_c5_scalar_action f7Hops f7Eops (by decide) (by decide) (by decide) (by decide)
    (by decide) (by decide) (by decide) (by decide) (by decide) (by decide)
  refine ⟨h.2.2.1 5 3 (by decide), ?_, h.2.2.2.1 6⟩
  have h2 := h.2.2.2.2.1 (-4) 2 (by decide)
  simpa using h2

/-- C6. Random-oracle contract: `RO(b, lam)` is one plus the big-endian
digest value reduced mod `2^lam`, hence lies in `[1, 2^lam]`, and it is
deterministic. -/
theorem gic_c6_ro :
    ∀ (sha256be : List Nat → Nat) (b : List Nat) (lam : Nat), 0 < lam →
      ro_default sha256be b lam = 1 + sha256be b % 2 ^ lam ∧
      1 ≤ ro_default sha256be b lam ∧
      ro_default sha256be b lam ≤ 2 ^ lam ∧
      (∀ (b2 : List Nat) (lam2 : Nat), b = b2 → lam = lam2 →
        ro_default sha256be b lam = ro_default sha256be b2 lam2) := by
  intro sha256be b lam hl
  refine ⟨rfl, ?_, ?_, ?_⟩
  · unfold ro_default
    omega
  · unfold ro_default
    have hp : 0 < 2 ^ lam := Nat.pos_pow_of_pos lam (by omega)
    have hm : sha256be b % 2 ^ lam < 2 ^ lam := Nat.mod_lt _ hp
    omega
  · rintro b2 lam2 rfl rfl
    rfl

theorem gic_c6_witness :
    ro_default (fun _ => 300) [1, 2] 4 = 1 + 300 % 2 ^ 4 ∧
    1 ≤ ro_default (fun _ => 300) [1, 2] 4 ∧
    ro_default (fun _ => 300) [1, 2] 4 ≤ 2 ^ 4 :=
  ⟨(gic_c6_ro (fun _ => 300) [1, 2] 4 (by decide)).1,
   (gic_c6_ro (fun _ => 300) [1, 2] 4 (by decide)).2.1,
   (gic_c6_ro (fun _ => 300) [1, 2] 4 (by decide)).2.2.1⟩

/-- C9. Single generic scalar-action algorithm: when the H primitives and
E primitives agree as functions, `z_action_H` and `z_action_E` compute
identical results for every integer scalar and element. -/
theorem gic_c9_single_algorithm {A : Type} (opsH : HGroupOps A) (opsE : EGroupOps A)
    (hzero : opsH.zero = opsE.one) (hadd : opsH.add = opsE.mul)
    (hneg : opsH.neg = opsE.inv) :
    ∀ (a : Int) (x : A), z_action_H opsH a x = z_action_E opsE a x :=
  fun a x => z_action_rename opsH opsE hzero hadd hneg a x

theorem gic_c9_witness :
    z_action_H f7Hops 9 5 = z_action_E f7Eops 9 5 ∧
    z_action_H f7Hops (-6) 2 = z_action_E f7Eops (-6) 2 :=
  ⟨gic_c9_single_algorithm f7Hops f7Eops rfl rfl rfl 9 5,
   gic_c9_single_algorithm f7Hops f7Eops rfl rfl rfl (-6) 2⟩

/-- C7 (amended). The GQ secret-key sampler's set of possible outputs is
exactly `{ x : 2 ≤ x ≤ N-1, gcd(x, N) = 1 }` — the valid domain minus the
element 1, which the candidate range `[2, N-1]` never produces — and each
possible output arises from exactly one raw candidate value, so acceptance
is uniform over that set. -/
theorem gic_c7_sampler :
    ∀ N x : Nat,
      (PossibleOutput N x ↔ 2 ≤ x ∧ x ≤ N - 1 ∧ Nat.gcd x N = 1) ∧
      (2 ≤ x → x ≤ N - 1 → Nat.gcd x N = 1 → ∃! c : Nat, c < N - 2 ∧ c + 2 = x) := by
  intro N x
  constructor
  · constructor
    · rintro ⟨cs, hlt, heq⟩
      exact sample_zstar_sound N x cs hlt heq
    · rintro ⟨h2, h1, hg⟩
      refine ⟨[x - 2], ?_, ?_⟩
      · intro c hc
        simp only [List.mem_singleton] at hc
        omega
      · rw [sample_zstar]
        have hx2 : x - 2 + 2 = x := by omega
        rw [hx2, if_pos hg]
  · intro h2 h1 hg
    refine ⟨x - 2, ⟨by omega, by omega⟩, ?_⟩
    intro y hy
    omega

theorem gic_c7_witness :
    PossibleOutput 15 7 ∧ (∃! c : Nat, c < 15 - 2 ∧ c + 2 = 7) :=
  ⟨(gic_c7_sampler 15 7).1.mpr (by decide),
   (gic_c7_sampler 15 7).2 (by decide) (by decide) (by decide)⟩

/-- C7 counterexample: 1 lies in the valid domain `Z_15^*` claimed to be
fully covered, yet no stream of in-range raw draws can make the sampler
output 1 — the candidate `x = c + 2` is always at least 2. -/
theorem gic_c7_counterexample :
    (1 ≤ 1 ∧ 1 ≤ 15 - 1 ∧ Nat.gcd 1 15 = 1) ∧ ¬ PossibleOutput 15 1 := by
  refine ⟨by decide, ?_⟩
  rintro ⟨cs, hlt, heq⟩
  have h := sample_zstar_sound 15 1 cs hlt heq
  omega

/-- C8. KeyDerivation is deterministic, and it fails (raises) exactly when
the secret key lies outside the valid domain: for GQ exactly when
`gcd(sk, N) ≠ 1`, for Schnorr/P-256 and BLS exactly when `sk ≡ 0 (mod q)`. -/
theorem gic_c8_keygen :
    (∀ (N e : Nat) (s1 s2 : Int), s1 = s2 → keygen_gq N e s1 = keygen_gq N e s2) ∧
    (∀ (P : Type) (q : Nat) (mulG : Nat → P) (s1 s2 : Int), s1 = s2 →
      keygen_p256 q mulG s1 = keygen_p256 q mulG s2) ∧
    (∀ (P : Type) (q : Nat) (mulG1 : Nat → P) (s1 s2 : Int), s1 = s2 →
      keygen_bls_g1 q mulG1 s1 = keygen_bls_g1 q mulG1 s2) ∧
    (∀ (N e : Nat) (s : Int), 0 < N → (keygen_gq N e s = none ↔ Int.gcd s N ≠ 1)) ∧
    (∀ (P : Type) (q : Nat) (mulG : Nat → P) (s : Int), 0 < q →
      (keygen_p256 q mulG s = none ↔ s % (q : Int) = 0)) ∧
    (∀ (P : Type) (q : Nat) (mulG1 : Nat → P) (s : Int), 0 < q →
      (keygen_bls_g1 q mulG1 s = none ↔ s % (q : Int) = 0)) := by
  refine ⟨?_, ?_, ?_, ?_, ?_, ?_⟩
  · rintro N e s1 s2 rfl
    rfl
  · rintro P q mulG s1 s2 rfl
    rfl
  · rintro P q mulG1 s1 s2 rfl
    rfl
  · intro N e s hN
    have hN0 : ((N : Int)) ≠ 0 := by
      exact_mod_cast hN.ne'
    have hnn : 0 ≤ s % (N : Int) := Int.emod_nonneg s hN0
    have hg : Nat.gcd ((s % (N : Int)).toNat) N = Int.gcd s N := by
      have habs : (s % (N : Int)).toNat = (s % (N : Int)).natAbs := by omega
      rw [habs]
      have habs2 : Int.gcd (s % (N : Int)) (N : Int) = (s % (N : Int)).natAbs.gcd N := by
        unfold Int.gcd
        rw [Int.natAbs_ofNat]
      rw [← habs2, int_gcd_emod]
    unfold keygen_gq
    rw [← hg]
    by_cases hc : Nat.gcd ((s % (N : Int)).toNat) N ≠ 1
    · rw [if_pos hc]
      constructor
      · intro _
        exact hc
      · intro _
        rfl
    · rw [if_neg hc]
      constructor
      · intro heq
        exact absurd heq (by simp)
      · intro hne
        exact absurd hne hc
  · intro P q mulG s hq
    have hq0 : ((q : Int)) ≠ 0 := by
      exact_mod_cast hq.ne'
    have hnn : 0 ≤ s % (q : Int) := Int.emod_nonneg s hq0
    unfold keygen_p256
    by_cases h : (s % (q : Int)).toNat = 0
    · rw [if_pos h]
      constructor
      · intro _
        omega
      · intro _
        rfl
    · rw [if_neg h]
      constructor
      · intro heq
        exact absurd heq (by simp)
      · intro hz
        exact absurd (by omega : (s % (q : Int)).toNat = 0) h
  · intro P q mulG1 s hq
    have hq0 : ((q : Int)) ≠ 0 := by
      exact_mod_cast hq.ne'
    have hnn : 0 ≤ s % (q : Int) := Int.emod_nonneg s hq0
    unfold keygen_bls_g1
    by_cases h : (s % (q : Int)).toNat = 0
    · rw [if_pos h]
      constructor
      · intro _
        omega
      · intro _
        rfl
    · rw [if_neg h]
      constructor
      · intro heq
        exact absurd heq (by simp)
      · intro hz
        exact absurd (by omega : (s % (q : Int)).toNat = 0) h

theorem gic_c8_witness :
    keygen_gq 15 3 6 = none ∧
    keygen_gq 15 3 2 ≠ none ∧
    keygen_p256 7 (fun n : Nat => n) 14 = none ∧
    keygen_bls_g1 5 (fun n : Nat => n) 5 = none ∧
    keygen_gq 15 3 2 = keygen_gq 15 3 2 := by
  refine ⟨(gic_c8_keygen.2.2.2.1 15 3 6 (by decide)).mpr (by decide), ?_,
    (gic_c8_keygen.2.2.2.2.1 Nat 7 (fun n => n) 14 (by decide)).mpr (by decide),
    (gic_c8_keygen.2.2.2.2.2 Nat 5 (fun n => n) 5 (by decide)).mpr (by decide),
    gic_c8_keygen.1 15 3 2 2 rfl⟩
  intro hnone
  have h := (gic_c8_keygen.2.2.2.1 15 3 2 (by decide)).mp hnone
  exact h (by decide)

/-- C1 (amended). End-to-end protocol correctness for every instantiation
whose H-ops and E-ops satisfy the group axioms **with the E operation
commutative**, whose Decode inverts Encode, and whose keygen satisfies the
homomorphism `keygen(scalarAct(H,e,x) ⊕ y) = scalarAct(E,e,keygen(x)) ⊗
keygen(y)`: for every identity and all secrets `sk_C, k_U, k_C`, the run
Setup → iCertGen → SKGen → PKRecon yields `pk_U ≠ ⊥` and
`keygen(sk_U) = pk_U`. -/
theorem gic_c1_correctness {Hty Ety : Type} (params : Params Hty Ety)
    (hHassoc : ∀ a b c, params.H_ops.add (params.H_ops.add a b) c =
      params.H_ops.add a (params.H_ops.add b c))
    (hHzero_add : ∀ a, params.H_ops.add params.H_ops.zero a = a)
    (hHadd_zero : ∀ a, params.H_ops.add a params.H_ops.zero = a)
    (hHneg_add : ∀ a, params.H_ops.add (params.H_ops.neg a) a = params.H_ops.zero)
    (hHadd_neg : ∀ a, params.H_ops.add a (params.H_ops.neg a) = params.H_ops.zero)
    (hEassoc : ∀ a b c, params.E_ops.mul (params.E_ops.mul a b) c =
      params.E_ops.mul a (params.E_ops.mul b c))
    (hEcomm : ∀ a b, params.E_ops.mul a b = params.E_ops.mul b a)
    (hEone_mul : ∀ a, params.E_ops.mul params.E_ops.one a = a)
    (hEmul_one : ∀ a, params.E_ops.mul a params.E_ops.one = a)
    (hEinv_mul : ∀ a, params.E_ops.mul (params.E_ops.inv a) a = params.E_ops.one)
    (hEmul_inv : ∀ a, params.E_ops.mul a (params.E_ops.inv a) = params.E_ops.one)
    (hdec : ∀ (R : Ety) (idb : List Nat), params.Decode (params.Encode R idb) = some (R, idb))
    (hhom : ∀ (e : Int) (x y : Hty),
      params.keygen (params.H_ops.add (z_action_H params.H_ops e x) y) =
        params.E_ops.mul (z_action_E params.E_ops e (params.keygen x)) (params.keygen y))
    (identity : List Nat) (sk_C k_U k_C : Hty) :
    PKRecon params (iCertGen params identity sk_C k_U k_C).2.1 (params.keygen sk_C) ≠ none ∧
    PKRecon params (iCertGen params identity sk_C k_U k_C).2.1 (params.keygen sk_C) =
      some (params.keygen (SKGen params (iCertGen params identity sk_C k_U k_C).2.2
        (iCertGen params identity sk_C k_U k_C).2.1)) := by
  have hiCer : (iCertGen params identity sk_C k_U k_C).2.1 =
      params.Encode (params.E_ops.mul (params.keygen k_U) (params.keygen k_C)) identity := rfl
  have hview : (iCertGen params identity sk_C k_U k_C).2.2 =
      (⟨k_U, params.H_ops.add
        (z_action_H params.H_ops
          (params.RO (params.Encode
            (params.E_ops.mul (params.keygen k_U) (params.keygen k_C)) identity)) k_C)
        sk_C⟩ : ViewU Hty) := rfl
  have hpk := PKRecon_decode_some params
    (params.Encode (params.E_ops.mul (params.keygen k_U) (params.keygen k_C)) identity)
    (params.keygen sk_C)
    (params.E_ops.mul (params.keygen k_U) (params.keygen k_C)) identity
    (hdec (params.E_ops.mul (params.keygen k_U) (params.keygen k_C)) identity)
  rw [hiCer, hview, hpk]
  refine ⟨by simp, ?_⟩
  congr 1
  unfold SKGen
  rw [hhom, hhom]
  rw [z_action_E_mul_distrib params.E_ops hEassoc hEcomm hEone_mul hEmul_one hEinv_mul
    hEmul_inv]
  rw [hEassoc]

theorem gic_c1_witness :
    PKRecon f7Params (iCertGen f7Params [98] 2 3 4).2.1 (f7Params.keygen 2) ≠ none ∧
    PKRecon f7Params (iCertGen f7Params [98] 2 3 4).2.1 (f7Params.keygen 2) =
      some (f7Params.keygen (SKGen f7Params (iCertGen f7Params [98] 2 3 4).2.2
        (iCertGen f7Params [98] 2 3 4).2.1)) :=
  gic_c1_correctness f7Params (by decide) (by decide) (by decide) (by decide) (by decide)
    (by decide) (by decide) (by decide) (by decide) (by decide) (by decide)
    f7_decode_encode f7_keygen_hom [98] 2 3 4

/-- C1 counterexample.  On the non-abelian group S₃ (used for both H and E,
with `keygen = id`) every hypothesis of the claim as stated — the group
axioms for H-ops and E-ops, Decode inverting Encode, and the keygen
homomorphism — holds, yet the protocol run with identity `[97]`,
`sk_C = id`, `k_U = (01)`, `k_C = (02)` reconstructs a public key different
from `keygen(sk_U)`: commutativity of E is genuinely needed. -/
theorem gic_c1_counterexample :
    (∀ a b c : Fin 6, s3Params.H_ops.add (s3Params.H_ops.add a b) c =
      s3Params.H_ops.add a (s3Params.H_ops.add b c)) ∧
    (∀ a, s3Params.H_ops.add s3Params.H_ops.zero a = a) ∧
    (∀ a, s3Params.H_ops.add a s3Params.H_ops.zero = a) ∧
    (∀ a, s3Params.H_ops.add (s3Params.H_ops.neg a) a = s3Params.H_ops.zero) ∧
    (∀ a, s3Params.H_ops.add a (s3Params.H_ops.neg a) = s3Params.H_ops.zero) ∧
    (∀ a b c : Fin 6, s3Params.E_ops.mul (s3Params.E_ops.mul a b) c =
      s3Params.E_ops.mul a (s3Params.E_ops.mul b c)) ∧
    (∀ a, s3Params.E_ops.mul s3Params.E_ops.one a = a) ∧
    (∀ a, s3Params.E_ops.mul a s3Params.E_ops.one = a) ∧
    (∀ a, s3Params.E_ops.mul (s3Params.E_ops.inv a) a = s3Params.E_ops.one) ∧
    (∀ a, s3Params.E_ops.mul a (s3Params.E_ops.inv a) = s3Params.E_ops.one) ∧
    (∀ (R : Fin 6) (idb : List Nat), s3Params.Decode (s3Params.Encode R idb) = some (R, idb)) ∧
    (∀ (e : Int) (x y : Fin 6),
      s3Params.keygen (s3Params.H_ops.add (z_action_H s3Params.H_ops e x) y) =
        s3Params.E_ops.mul (z_action_E s3Params.E_ops e (s3Params.keygen x))
          (s3Params.keygen y)) ∧
    PKRecon s3Params (iCertGen s3Params [97] 0 1 2).2.1 (s3Params.keygen 0) ≠ none ∧
    PKRecon s3Params (iCertGen s3Params [97] 0 1 2).2.1 (s3Params.keygen 0) ≠
      some (s3Params.keygen (SKGen s3Params (iCertGen s3Params [97] 0 1 2).2.2
        (iCertGen s3Params [97] 0 1 2).2.1)) := by
  refine ⟨by decide, by decide, by decide, by decide, by decide, by decide, by decide,
    by decide, by decide, by decide, s3_decode_encode, s3_keygen_hom, by decide, ?_⟩
  have he : ∀ X : Fin 6, z_action_E s3Eops 2 X = powE s3Eops 2 X := fun X =>
    z_action_E_pos s3Eops (by decide) (by decide) (by decide) 2 (by decide) X
  have hh : ∀ x : Fin 6, z_action_H s3Hops 2 x = powH s3Hops 2 x := fun x =>
    z_action_H_pos s3Hops (by decide) (by decide) (by decide) 2 (by decide) x
  simp only [iCertGen, SKGen, PKRecon, s3Params, he, hh]
  decide

/-- C10 (amended). The GQ decoder accepts every non-canonical element
encoding: any `x < 2^(8k)` whose residue mod `N` is invertible decodes to
`(x mod N, id)`; consequently, whenever `N + 1 < 2^(8k)` (which holds for
every RSA modulus, though not for `N = 2^(8k) - 1`), two distinct accepted
byte strings decode to the same pair, so decode is not injective on
accepted inputs and Encode ∘ Decode is not the identity on all accepted
certificates. -/
theorem gic_c10_noncanonical :
    (∀ (N x : Nat) (idb : List Nat), x < 2 ^ (8 * gq_len N) → Nat.gcd (x % N) N = 1 →
      gq_decode N (rPrefix ++ (toBytes (gq_len N) x ++ (idDelim ++ idb))) = some (x % N, idb)) ∧
    (∀ N : Nat, N + 1 < 2 ^ (8 * gq_len N) →
      ∃ c1 c2 : List Nat,
        (∀ b ∈ c1, b < 256) ∧ (∀ b ∈ c2, b < 256) ∧ c1 ≠ c2 ∧
        (gq_decode N c1).isSome ∧ gq_decode N c1 = gq_decode N c2 ∧
        ∃ (r : Nat) (idb : List Nat), gq_decode N c2 = some (r, idb) ∧
          gq_encode N r idb ≠ c2) := by
  refine ⟨fun N x idb hx hg => gq_decode_raw N x idb hx hg, ?_⟩
  intro N hcond
  have hN : 1 ≤ N := by
    by_contra hn
    have h0 : N = 0 := by omega
    subst h0
    have hgl : gq_len 0 = 0 := by decide
    rw [hgl] at hcond
    norm_num at hcond
  have hgcd1 : Nat.gcd (1 % N) N = 1 := by
    by_cases h1 : N = 1
    · subst h1
      decide
    · have h1N : 1 % N = 1 := Nat.mod_eq_of_lt (by omega)
      rw [h1N]
      exact Nat.gcd_one_left N
  have hpow := lt_pow_gq_len N
  have hsum : (1 + N) % N = 1 % N := Nat.add_mod_right 1 N
  have hgcd2 : Nat.gcd ((1 + N) % N) N = 1 := by
    rw [hsum]
    exact hgcd1
  have hd1 := gq_decode_raw N 1 [] (by omega) hgcd1
  have hd2 := gq_decode_raw N (1 + N) [] (by omega) hgcd2
  have hbytes : ∀ x : Nat,
      ∀ b ∈ rPrefix ++ (toBytes (gq_len N) x ++ (idDelim ++ ([] : List Nat))), b < 256 := by
    intro x b hb
    rcases List.mem_append.mp hb with h | h
    · simp only [rPrefix, List.mem_cons, List.not_mem_nil, or_false] at h
      rcases h with rfl | rfl <;> omega
    · rcases List.mem_append.mp h with h2 | h2
      · exact toBytes_mem_lt _ x b h2
      · rcases List.mem_append.mp h2 with h3 | h3
        · simp only [idDelim, List.mem_cons, List.not_mem_nil, or_false] at h3
          rcases h3 with rfl | rfl | rfl | rfl <;> omega
        · simp at h3
  have hmodlt : (1 + N) % N < N := Nat.mod_lt _ (by omega)
  refine ⟨rPrefix ++ (toBytes (gq_len N) 1 ++ (idDelim ++ [])),
          rPrefix ++ (toBytes (gq_len N) (1 + N) ++ (idDelim ++ [])),
          hbytes 1, hbytes (1 + N), ?_, ?_, ?_, ?_⟩
  · intro heq
    have h1 := List.append_cancel_left heq
    have h2 := List.append_cancel_right h1
    have h3 := toBytes_inj (gq_len N) 1 (1 + N) (by rw [pow_256_gq_len]; omega)
      (by rw [pow_256_gq_len]; omega) h2
    omega
  · rw [hd1]
    rfl
  · rw [hd1, hd2, hsum]
  · refine ⟨(1 + N) % N, [], hd2, ?_⟩
    intro heq
    unfold gq_encode at heq
    rw [Nat.mod_mod_of_dvd (1 + N) (dvd_refl N)] at heq
    simp only [List.append_assoc, List.append_nil] at heq
    have h1 := List.append_cancel_left heq
    have h2 := List.append_cancel_right h1
    have h3 := toBytes_inj (gq_len N) ((1 + N) % N) (1 + N)
      (by rw [pow_256_gq_len]; omega) (by rw [pow_256_gq_len]; omega) h2
    omega

theorem gic_c10_witness :
    gq_decode 7 (rPrefix ++ (toBytes (gq_len 7) 8 ++ (idDelim ++ [5]))) = some (8 % 7, [5]) ∧
    (∃ c1 c2 : List Nat, (∀ b ∈ c1, b < 256) ∧ (∀ b ∈ c2, b < 256) ∧ c1 ≠ c2 ∧
      (gq_decode 7 c1).isSome ∧ gq_decode 7 c1 = gq_decode 7 c2 ∧
      ∃ (r : Nat) (idb : List Nat), gq_decode 7 c2 = some (r, idb) ∧ gq_encode 7 r idb ≠ c2) :=
  ⟨gic_c10_noncanonical.1 7 8 [5] (by decide) (by decide),
   gic_c10_noncanonical.2 7 (by decide)⟩

/-- C10 counterexample.  At `N = 255` (where `k = 1`) the claimed side
condition `2^(8k) > N` holds, yet no two distinct accepted byte strings
decode to the same pair: the GQ decoder for `N = 255` is injective on
accepted inputs, because the only residue with two one-byte encodings is 0,
which the invertibility check rejects. -/
theorem gic_c10_counterexample :
    2 ^ (8 * gq_len 255) > 255 ∧
    ¬ ∃ c1 c2 : List Nat, (∀ b ∈ c1, b < 256) ∧ (∀ b ∈ c2, b < 256) ∧ c1 ≠ c2 ∧
      (gq_decode 255 c1).isSome ∧ gq_decode 255 c1 = gq_decode 255 c2 := by
  refine ⟨by decide, ?_⟩
  rintro ⟨c1, c2, hb1, hb2, hne, hsome, heq⟩
  obtain ⟨⟨r, idb⟩, hr⟩ := Option.isSome_iff_exists.mp hsome
  have hr2 : gq_decode 255 c2 = some (r, idb) := by
    rw [← heq]
    exact hr
  rw [gq_decode_eq_some_iff] at hr hr2
  obtain ⟨ru1, hlen1, hc1, hrv1, hg1⟩ := hr
  obtain ⟨ru2, hlen2, hc2, hrv2, hg2⟩ := hr2
  have hk : gq_len 255 = 1 := by decide
  rw [hk] at hlen1 hlen2
  obtain ⟨b1, rfl⟩ : ∃ b, ru1 = [b] := by
    cases ru1 with
    | nil => simp at hlen1
    | cons a t =>
      cases t with
      | nil => exact ⟨a, rfl⟩
      | cons a2 t2 => simp at hlen1
  obtain ⟨b2, rfl⟩ : ∃ b, ru2 = [b] := by
    cases ru2 with
    | nil => simp at hlen2
    | cons a t =>
      cases t with
      | nil => exact ⟨a, rfl⟩
      | cons a2 t2 => simp at hlen2
  have hfb1 : fromBytes [b1] = b1 := by
    simp [fromBytes]
  have hfb2 : fromBytes [b2] = b2 := by
    simp [fromBytes]
  rw [hfb1] at hrv1
  rw [hfb2] at hrv2
  have hblt1 : b1 < 256 := hb1 b1 (by rw [hc1]; simp [rPrefix])
  have hblt2 : b2 < 256 := hb2 b2 (by rw [hc2]; simp [rPrefix])
  have hbne : b1 ≠ b2 := by
    intro hbb
    apply hne
    rw [hc1, hc2, hbb]
  have hr0 : r = 0 := by omega
  rw [hr0] at hg1
  simp [Nat.gcd_zero_left] at hg1
